import Mathlib

/-!
Verification of the record-linkage and indexing engine of the medication-ui
repository (the raw processor for the Medicaid NADAC and openFDA drug NDC
datasets).  The JavaScript source is shallowly embedded: strings are modelled
as `List Char`, JavaScript `Map`s (which preserve insertion order and have
unique keys) as association lists with first-match lookup, and optional or
missing object properties as `Option`.  Definitions follow the source
functions of `raw-process` (helpers, `buildOpenFdaIndexes`,
`collectOpenFdaNdcMatches`, `enrichMedicaidWithOpenFda`, and the chunking
logic of `main`) name for name wherever Lean allows.
-/

set_option maxRecDepth 8000

namespace MedUi

/-- Embedding of `normalizeWhitespaceLower`: lowercase, collapse every run of
whitespace to a single space, and trim.  The JS
`toLowerCase().replace(/\s+/g, ' ').trim()` is exactly the interleaving of the
maximal non-whitespace runs with single spaces, which is what splitting on
whitespace characters, discarding empty segments and intercalating a space
computes. -/
def normalizeWhitespaceLower (s : List Char) : List Char :=
  List.intercalate [' ']
    (((s.map Char.toLower).splitOnP (fun c => c.isWhitespace)).filter (fun t => ¬ t.isEmpty))

/-- Character class of the JS regex `[a-z0-9]` (the input is lowercased first). -/
def isWordChar (c : Char) : Bool :=
  ('a' ≤ c && c ≤ 'z') || ('0' ≤ c && c ≤ '9')

/-- Embedding of `tokenizeWords`: normalize, split on runs of
non-alphanumeric characters, keep tokens of length at least 3.  Splitting
character-by-character instead of on maximal separator runs only produces
extra empty segments, which the length filter removes, so the token list is
the same as the JS `split(/[^a-z0-9]+/)` result after its filter. -/
def tokenizeWords (s : List Char) : List (List Char) :=
  ((normalizeWhitespaceLower s).splitOnP (fun c => ¬ isWordChar c)).filter
    (fun t => 3 ≤ t.length)

/-- Embedding of JS `String.prototype.trim` on the ASCII model. -/
def trimList (l : List Char) : List Char :=
  ((l.dropWhile Char.isWhitespace).reverse.dropWhile Char.isWhitespace).reverse

/-- Embedding of `normalizeMedNdc`: strip every non-digit character
(`replace(/\D+/g, '')` followed by `trim`, which is a no-op on digits). -/
def normalizeMedNdc (ndc : List Char) : List Char :=
  trimList (ndc.filter Char.isDigit)

/-- Embedding of `openFdaDigitsKeepZeros`: remove hyphens, then every
remaining non-digit. -/
def openFdaDigitsKeepZeros (productNdc : List Char) : List Char :=
  ((productNdc.filter (fun c => c ≠ '-')).filter Char.isDigit)

/-- Embedding of `openFdaHyphenZeroFill`: replace each hyphen by a literal
zero, then remove every remaining non-digit. -/
def openFdaHyphenZeroFill (productNdc : List Char) : List Char :=
  ((productNdc.map (fun c => if c = '-' then '0' else c)).filter Char.isDigit)

/-- One active-ingredient object of an openFDA item; in the source a missing
`name`/`strength` is read back as `''`, so both are plain strings here. -/
structure ActiveIngredient where
  name : List Char
  strength : List Char
deriving Repr, DecidableEq

/-- One raw openFDA drug-NDC item, restricted to the properties the processor
reads (`item.product_ndc`, `item.brand_name`, ..., with the camel-case
fallbacks and the array coercion of `route` resolved at this boundary). -/
structure OpenFdaItem where
  product_ndc : List Char
  brand_name : List Char
  generic_name : List Char
  active_ingredients : List ActiveIngredient
  dosage_form : List Char
  route : List (List Char)
  labeler_name : List Char
deriving Repr, DecidableEq

/-- The per-item record built by the `openFdaArr.map` step of
`buildOpenFdaIndexes`. -/
structure Entry where
  productNdc : List Char
  ndcDigits : List Char
  ndcZeroFill : List Char
  brandName : List Char
  genericName : List Char
  activeIngredients : List ActiveIngredient
  dosageForm : List Char
  routes : List (List Char)
  labelerName : List Char
deriving Repr, DecidableEq

/-- The formatting hypothesis of a variant: the JS strings
`'digits'` and `'zeroFill'`. -/
inductive VType where
  | digits
  | zeroFill
deriving Repr, DecidableEq

/-- One record stored in the length-bucketed index:
the JS object literal `{ idx, variant, vtype }`. -/
structure IndexRec where
  idx : Nat
  variant : List Char
  vtype : VType
deriving Repr, DecidableEq

/-- Inner map of one length bucket: variant string to list of index records.
JS `Map`s keep unique keys in insertion order, so an association list with
first-match lookup is an exact model. -/
abbrev InnerMap : Type := List (List Char × List IndexRec)

/-- The `ndcByLength` map: variant length to length bucket. -/
abbrev NdcByLength : Type := List (Nat × InnerMap)

/-- JS `Map.prototype.get`: first (and only) binding of the key, if any. -/
def jsGet {κ ω : Type} [DecidableEq κ] : List (κ × ω) → κ → Option ω
  | [], _ => none
  | (k', v) :: rest, k => if k' = k then some v else jsGet rest k

/-- Embedding of the helper `addToMapArray(map, key, value)`: push onto the
existing array of `key` (kept at its position) or bind `key` to `[value]` at
the end of the map. -/
def addToMapArray : InnerMap → List Char → IndexRec → InnerMap
  | [], k, v => [(k, [v])]
  | (k', arr) :: rest, k, v =>
    if k' = k then (k', arr ++ [v]) :: rest
    else (k', arr) :: addToMapArray rest k v

/-- The insertion step of `buildOpenFdaIndexes`:
`if (!ndcByLength.has(L)) ndcByLength.set(L, new Map());
addToMapArray(ndcByLength.get(L), cur, { idx, variant: cur, vtype })`. -/
def indexInsert : NdcByLength → Nat → List Char → IndexRec → NdcByLength
  | [], L, cur, r => [(L, addToMapArray [] cur r)]
  | (L', m) :: rest, L, cur, r =>
    if L' = L then (L', addToMapArray m cur r) :: rest
    else (L', m) :: indexInsert rest L cur r

/-- State threaded through one entry of the index-building loop: the
`ndcByLength` map under construction and the per-entry `seen` set of variant
strings (a JS `Set`, modelled as the list of its members in insertion
order). -/
abbrev BuildState : Type := NdcByLength × List (List Char)

/-- Body of the `while` loop of `buildOpenFdaIndexes` for the current value of
`cur`: insert `cur` into the index unless this entry already saw it. -/
def stripStep (idx : Nat) (vtype : VType) (cur : List Char) (st : BuildState) : BuildState :=
  if cur ∈ st.2 then st
  else (indexInsert st.1 cur.length cur ⟨idx, cur, vtype⟩, st.2 ++ [cur])

/-- The `while (true)` loop of `buildOpenFdaIndexes`: record the current
variant, then stop when its length is at most 5 or its first character is not
`'0'`, otherwise drop the leading zero and continue. -/
def stripLoop (idx : Nat) (vtype : VType) : List Char → BuildState → BuildState
  | [], st => stripStep idx vtype [] st
  | c :: cs, st =>
    let st' := stripStep idx vtype (c :: cs) st
    if (c :: cs).length ≤ 5 then st'
    else if c ≠ '0' then st'
    else stripLoop idx vtype cs st'

/-- Processing of one entry by the `entries.forEach` loop: a fresh `seen`
set, then the two trimmed variants (digits-only first, zero-fill second),
skipping an empty variant. -/
def processEntry (nbl : NdcByLength) (idx : Nat) (e : Entry) : NdcByLength :=
  let variants : List (List Char × VType) :=
    [(trimList e.ndcDigits, VType.digits), (trimList e.ndcZeroFill, VType.zeroFill)]
  (variants.foldl
    (fun st v => if v.1.isEmpty then st else stripLoop idx v.2 v.1 st)
    (nbl, [])).1

/-- The per-item record construction of `buildOpenFdaIndexes`. -/
def mkEntry (item : OpenFdaItem) : Entry :=
  { productNdc := item.product_ndc
    ndcDigits := openFdaDigitsKeepZeros item.product_ndc
    ndcZeroFill := openFdaHyphenZeroFill item.product_ndc
    brandName := item.brand_name
    genericName := item.generic_name
    activeIngredients := item.active_ingredients
    dosageForm := item.dosage_form
    routes := item.route
    labelerName := item.labeler_name }

/-- Result of `buildOpenFdaIndexes`: the entry array and the length-bucketed
variant index. -/
structure OpenIdx where
  entries : List Entry
  ndcByLength : NdcByLength
deriving Repr

/-- Embedding of `buildOpenFdaIndexes`. -/
def buildOpenFdaIndexes (openFdaArr : List OpenFdaItem) : OpenIdx :=
  let entries := openFdaArr.map mkEntry
  { entries := entries
    ndcByLength := entries.enum.foldl (fun nbl p => processEntry nbl p.1 p.2) [] }

/-- Embedding of `uniqueList(arr, limit)`: trim, drop blanks, deduplicate,
stop at `limit` items. -/
def uniqueListGo (seen out : List (List Char)) (limit : Nat) :
    List (List Char) → List (List Char)
  | [] => out
  | v :: rest =>
    let t := trimList v
    if t.isEmpty then uniqueListGo seen out limit rest
    else if t ∈ seen then uniqueListGo seen out limit rest
    else if limit ≤ (out ++ [t]).length then out ++ [t]
    else uniqueListGo (seen ++ [t]) (out ++ [t]) limit rest

/-- Embedding of `uniqueList` (the processor always passes an explicit
limit of 5 for routes; the default is 10). -/
def uniqueList (arr : List (List Char)) (limit : Nat) : List (List Char) :=
  uniqueListGo [] [] limit arr

/-- Embedding of `formatActiveIngredients`: join the per-ingredient
`name strength` summaries with `'; '`, or `undefined` when nothing remains. -/
def formatActiveIngredients (aiArray : List ActiveIngredient) : Option (List Char) :=
  if aiArray.isEmpty then none
  else
    let parts := (aiArray.map (fun ai =>
      let left := if ¬ ai.name.isEmpty then ai.name else ai.strength
      let right := if ¬ ai.name.isEmpty ∧ ¬ ai.strength.isEmpty then ' ' :: ai.strength else []
      trimList (left ++ right))).filter (fun p => ¬ p.isEmpty)
    if parts.isEmpty then none else some (List.intercalate [';', ' '] parts)

/-- The detailed active-ingredient shape of `mapActiveIngredientsDetailed`,
with JS `undefined` as `none`. -/
structure AiDetailed where
  name : Option (List Char)
  strength : Option (List Char)
deriving Repr, DecidableEq

/-- Truthiness of `x && x.trim()` for an optional string. -/
def optNonBlank : Option (List Char) → Bool
  | some s => ¬ (trimList s).isEmpty
  | none => false

/-- Embedding of `mapActiveIngredientsDetailed`. -/
def mapActiveIngredientsDetailed (aiArray : List ActiveIngredient) : Option (List AiDetailed) :=
  let out := (aiArray.map (fun ai =>
      ({ name := if ai.name.isEmpty then none else some ai.name
         strength := if ai.strength.isEmpty then none else some ai.strength } : AiDetailed))).filter
    (fun x => optNonBlank x.name || optNonBlank x.strength)
  if out.isEmpty then none else some out

/-- The match direction: the JS strings `'forward'` and `'reverse'`. -/
inductive MatchMode where
  | forward
  | reverse
deriving Repr, DecidableEq

/-- The object built by `formatOpenFdaMatcher`, plus the `bestMatch` flag that
the best-match selector later sets by object spread (absent, i.e. `false`,
when the matcher is first built). -/
structure Matcher where
  productNdc : List Char
  normalizedProductNdc : List Char
  matchedVariantType : VType
  matchMode : MatchMode
  brandName : List Char
  genericName : List Char
  dosageForm : Option (List Char)
  routes : List (List Char)
  dosageStrength : Option (List Char)
  activeIngredientsDetailed : Option (List AiDetailed)
  labelerName : Option (List Char)
  bestMatch : Bool
deriving Repr, DecidableEq

/-- Embedding of `formatOpenFdaMatcher(e, variant, vtype, matchMode)`. -/
def formatOpenFdaMatcher (e : Entry) (variant : List Char) (vtype : VType)
    (mode : MatchMode) : Matcher :=
  { productNdc := e.productNdc
    normalizedProductNdc := variant
    matchedVariantType := vtype
    matchMode := mode
    brandName := e.brandName
    genericName := e.genericName
    dosageForm := if e.dosageForm.isEmpty then none else some e.dosageForm
    routes := uniqueList e.routes 5
    dosageStrength := formatActiveIngredients e.activeIngredients
    activeIngredientsDetailed := mapActiveIngredientsDetailed e.activeIngredients
    labelerName := if e.labelerName.isEmpty then none else some e.labelerName
    bestMatch := false }

/-- Deduplication signature of a match: the JS string
`idx + '|' + variant + '|' + vtype` is an injective encoding of this triple
(variants are digit strings, so they contain no `'|'`). -/
abbrev Sig : Type := Nat × List Char × VType

/-- Matcher-list-with-seen-set state threaded through both phases of
`collectOpenFdaNdcMatches`. -/
abbrev MatchState : Type := List Matcher × List Sig

/-- The inner `for (const { idx, variant, vtype } of arr)` loop shared by both
phases: push one matcher per index record not already seen. -/
def pushMatches (entries : List Entry) (mode : MatchMode) :
    List IndexRec → MatchState → MatchState
  | [], st => st
  | r :: rest, st =>
    pushMatches entries mode rest
      (if (r.idx, r.variant, r.vtype) ∈ st.2 then st
       else
         match entries.get? r.idx with
         | some e =>
           (st.1 ++ [formatOpenFdaMatcher e r.variant r.vtype mode],
            st.2 ++ [(r.idx, r.variant, r.vtype)])
         | none => st)

/-- Insertion into a sorted list, used to model
`[...ndcByLength.keys()].sort((a, b) => a - b)`; the keys are distinct, so
any correct ascending sort yields the same list. -/
def insertAsc (x : Nat) : List Nat → List Nat
  | [] => [x]
  | y :: ys => if x ≤ y then x :: y :: ys else y :: insertAsc x ys

/-- Ascending sort of the bucket lengths. -/
def sortAsc (l : List Nat) : List Nat := l.foldr insertAsc []

/-- The forward phase of `collectOpenFdaNdcMatches`: for every bucket length
`L ≤ medLen`, look up every length-`L` substring of the identifier. -/
def forwardPhase (medDigits : List Char) (openIdx : OpenIdx) : MatchState :=
  let medLen := medDigits.length
  let lengthsAsc := sortAsc (openIdx.ndcByLength.map (fun p => p.1))
  (lengthsAsc.filter (fun L => L ≤ medLen)).foldl
    (fun st L =>
      match jsGet openIdx.ndcByLength L with
      | some mapL =>
        (List.range (medLen - L + 1)).foldl
          (fun st i =>
            match jsGet mapL ((medDigits.drop i).take L) with
            | some arr => pushMatches openIdx.entries MatchMode.forward arr st
            | none => st) st
      | none => st) ([], [])

/-- Boolean prefix test on character lists. -/
def isPrefixB : List Char → List Char → Bool
  | [], _ => true
  | _ :: _, [] => false
  | a :: as, b :: bs => a = b && isPrefixB as bs

/-- Embedding of JS `String.prototype.includes`: substring containment. -/
def includesB (needle : List Char) : List Char → Bool
  | [] => needle.isEmpty
  | c :: rest => isPrefixB needle (c :: rest) || includesB needle rest

/-- The reverse phase of `collectOpenFdaNdcMatches`: for every bucket length
`L > medLen`, scan every variant of the bucket and keep those containing the
identifier as a substring. -/
def reversePhase (medDigits : List Char) (openIdx : OpenIdx) (st : MatchState) : MatchState :=
  let medLen := medDigits.length
  let lengthsAsc := sortAsc (openIdx.ndcByLength.map (fun p => p.1))
  (lengthsAsc.filter (fun L => medLen < L)).foldl
    (fun st L =>
      match jsGet openIdx.ndcByLength L with
      | some mapL =>
        mapL.foldl
          (fun st kv =>
            if includesB medDigits kv.1 then
              pushMatches openIdx.entries MatchMode.reverse kv.2 st
            else st) st
      | none => st) st

/-- Embedding of `collectOpenFdaNdcMatches`: forward phase, then — only when
it produced nothing — the reverse phase. -/
def collectOpenFdaNdcMatches (medNdcOriginal : List Char) (openIdx : OpenIdx) : List Matcher :=
  let medDigits := normalizeMedNdc medNdcOriginal
  if medDigits.isEmpty then []
  else
    let fwd := forwardPhase medDigits openIdx
    if 0 < fwd.1.length then fwd.1
    else (reversePhase medDigits openIdx fwd).1

/-- One deduplicated Medicaid pricing row as built by `buildMedicaidUnique`
(field for field; the CSV columns read with `|| undefined` are `Option`s). -/
structure MedEntry where
  ndc_description : List Char
  ndc : List Char
  nadac_per_unit : Option (List Char)
  effective_date : Option (List Char)
  pricing_unit : Option (List Char)
  pharmacy_type_indicator : Option (List Char)
  otc : Option (List Char)
  explanation_code : Option (List Char)
  classification_for_rate_setting : Option (List Char)
  corresponding_generic_drug_nadac_per_unit : Option (List Char)
  corresponding_generic_drug_effective_date : Option (List Char)
  as_of_date : Option (List Char)
deriving Repr, DecidableEq

/-- One record of the consolidated enriched output.  A matched record is the
whole pricing row plus the `fdaMatches` array
(`{ ...med, fdaMatches: matches }`); an unmatched record is the short object
`{ ndc_description: med.ndc_description, ndc: med.ndc }` and nothing else. -/
inductive EnrichedRecord where
  | matched (med : MedEntry) (fdaMatches : List Matcher)
  | unmatched (ndc_description : List Char) (ndc : List Char)
deriving Repr, DecidableEq

/-- The second-stage filter predicate of `enrichMedicaidWithOpenFda`: a
candidate survives when its brand name is non-blank and shares a token with
the description's token set. -/
def semanticFilter (descTokens : List (List Char)) (m : Matcher) : Bool :=
  let hasBrand := 0 < (normalizeWhitespaceLower m.brandName).length
  if hasBrand then (tokenizeWords m.brandName).any (fun t => t ∈ descTokens)
  else false

/-- Length of a matcher's normalized variant, the JS
`m && m.normalizedProductNdc ? String(m.normalizedProductNdc).length : 0`
(an empty string yields 0 on both readings). -/
def matcherLen (m : Matcher) : Nat := m.normalizedProductNdc.length

/-- The best-match selection of `enrichMedicaidWithOpenFda`: keep only the
matchers of maximal variant length and mark them `bestMatch`. -/
def bestSelect (ms : List Matcher) : List Matcher :=
  if 0 < ms.length then
    let lengths := (ms.map matcherLen).filter (fun L => 0 < L)
    let maxLen := if lengths.isEmpty then 0 else lengths.foldl Nat.max 0
    (ms.filter (fun m => matcherLen m = maxLen)).map
      (fun m => { m with bestMatch := true })
  else ms

/-- The body of the `for (const med of uniqueMed)` loop of
`enrichMedicaidWithOpenFda`: collect candidates, apply the semantic filter,
keep the best matches, and emit either the full record with `fdaMatches` or
the short unmatched record. -/
def enrichOne (openIdx : OpenIdx) (med : MedEntry) : EnrichedRecord :=
  let matches0 := collectOpenFdaNdcMatches med.ndc openIdx
  let descTokens := tokenizeWords med.ndc_description
  let matches1 := matches0.filter (semanticFilter descTokens)
  let matches2 := bestSelect matches1
  if 0 < matches2.length then EnrichedRecord.matched med matches2
  else EnrichedRecord.unmatched med.ndc_description med.ndc

/-- Embedding of the record construction of `enrichMedicaidWithOpenFda`
(the console statistics do not influence the output array). -/
def enrichMedicaidWithOpenFda (uniqueMed : List MedEntry) (openIdx : OpenIdx) :
    List EnrichedRecord :=
  uniqueMed.map (enrichOne openIdx)

/-- Ingestion key of a pricing row: `buildMedicaidUnique` deduplicates on the
string `desc + '||' + ndc`, an injective encoding of this pair for
identifiers without `'|'`. -/
def medKey (med : MedEntry) : List Char × List Char := (med.ndc_description, med.ndc)

/-- The (description, identifier) key carried by an output record. -/
def recKey : EnrichedRecord → List Char × List Char
  | EnrichedRecord.matched med _ => (med.ndc_description, med.ndc)
  | EnrichedRecord.unmatched d n => (d, n)

/-- The `fdaMatches` array of an output record; reading the property of an
unmatched record yields `undefined`, i.e. no matches. -/
def matchListOf : EnrichedRecord → List Matcher
  | EnrichedRecord.matched _ ms => ms
  | EnrichedRecord.unmatched _ _ => []

/-- The `nadac_per_unit` property of an output record; the short unmatched
object has no such property, so reading it yields `undefined`. -/
def recNadacPerUnit : EnrichedRecord → Option (List Char)
  | EnrichedRecord.matched med _ => med.nadac_per_unit
  | EnrichedRecord.unmatched _ _ => none

/-- The `pricing_unit` property of an output record, `undefined` on the short
unmatched object. -/
def recPricingUnit : EnrichedRecord → Option (List Char)
  | EnrichedRecord.matched med _ => med.pricing_unit
  | EnrichedRecord.unmatched _ _ => none

/-- The partition size of `main`: `const chunkSize = 4000`. -/
def chunkSize : Nat := 4000

/-- The chunking loop of `main`:
`for (let i = 0; i < enriched.length; i += chunkSize) enriched.slice(i, i + chunkSize)`. -/
def chunkSlices {α : Type} : List α → List (List α)
  | [] => []
  | x :: xs => (x :: xs).take chunkSize :: chunkSlices ((x :: xs).drop chunkSize)
termination_by l => l.length
decreasing_by simp [chunkSize]; omega

/-- The chunk-length sequence of a collection of the given size, used to
reason about the manifest counts numerically. -/
def chunkCounts (n : Nat) : List Nat :=
  if n = 0 then []
  else (if n ≤ chunkSize then n else chunkSize) :: chunkCounts (n - chunkSize)
termination_by n
decreasing_by simp [chunkSize]; omega

/-- One element of `chunksMeta`: the chunk file (identified by its 1-based
number `k`, standing for `enriched-chunk-k.json`) and its record count. -/
structure ChunkMeta where
  filename : Nat
  count : Nat
deriving Repr, DecidableEq

/-- The `chunks-manifest.json` object written by `main`. -/
structure Manifest where
  total : Nat
  chunkSize : Nat
  numberOfChunks : Nat
  chunks : List ChunkMeta
deriving Repr, DecidableEq

/-- The `chunksMeta` array of `main`: at each push the filename number is
`chunksMeta.length + 1`, i.e. the 1-based position of the slice. -/
def mkChunksMeta (enriched : List EnrichedRecord) : List ChunkMeta :=
  (chunkSlices enriched).enum.map (fun p => { filename := p.1 + 1, count := p.2.length })

/-- The manifest object of `main`. -/
def mkManifest (enriched : List EnrichedRecord) : Manifest :=
  { total := enriched.length
    chunkSize := chunkSize
    numberOfChunks := (mkChunksMeta enriched).length
    chunks := mkChunksMeta enriched }

/-- The final paths the run writes to: the consolidated enriched output and
the search index (written at the end of `enrichMedicaidWithOpenFda`), then
each chunk file, the chunks manifest and the description-classification map
(written by `main`). -/
inductive ArtifactPath where
  | enrichedPublic
  | searchIndexPublic
  | chunkFile (k : Nat)
  | chunksManifest
  | descClassMap
deriving Repr, DecidableEq

/-- The order in which the run issues its `fs.writeFileSync` calls, every one
directly to the artifact's final path (the source stages nothing through
temporary locations). -/
def mainWriteOrder (enriched : List EnrichedRecord) : List ArtifactPath :=
  [ArtifactPath.enrichedPublic, ArtifactPath.searchIndexPublic]
    ++ (List.range (chunkSlices enriched).length).map (fun i => ArtifactPath.chunkFile (i + 1))
    ++ [ArtifactPath.chunksManifest, ArtifactPath.descClassMap]

/-- Observable outcome of a run: the artifacts durably written at their final
paths, and the process exit code. -/
structure RunResult where
  written : List ArtifactPath
  exitCode : Nat
deriving Repr, DecidableEq

/-- Effect model of the run's write sequence: writes are issued in order; the
first failing write throws, the surrounding handlers (`main`'s `try/catch`
and `main().catch`) report the error and call `process.exit(1)`, so later
writes are not issued, while the files already written stay at their final
paths. -/
def runWrites (fails : ArtifactPath → Bool) : List ArtifactPath → List ArtifactPath → RunResult
  | [], acc => { written := acc, exitCode := 0 }
  | p :: rest, acc =>
    if fails p then { written := acc, exitCode := 1 }
    else runWrites fails rest (acc ++ [p])

/-! ### Generic helper lemmas -/

/-- A property preserved by every step of a left fold holds of the result. -/
lemma foldl_preserve {α β : Type} (P : β → Prop) (f : β → α → β)
    (h : ∀ b a, P b → P (f b a)) :
    ∀ (l : List α) (b : β), P b → P (l.foldl f b) := by
  intro l
  induction l with
  | nil => intro b hb; exact hb
  | cons a as ih => intro b hb; exact ih (f b a) (h b a hb)

/-- Concatenating the slices of the chunking loop reconstructs the input. -/
lemma chunkSlices_flatten {α : Type} (l : List α) : (chunkSlices l).flatten = l := by
  match l with
  | [] => simp [chunkSlices]
  | x :: xs =>
    rw [chunkSlices]
    simp only [List.flatten_cons]
    rw [chunkSlices_flatten ((x :: xs).drop chunkSize)]
    exact List.take_append_drop _ _
termination_by l.length
decreasing_by simp [chunkSize]; omega

/-- The slice lengths of the chunking loop depend only on the input length. -/
lemma chunkSlices_map_length {α : Type} (l : List α) :
    (chunkSlices l).map List.length = chunkCounts l.length := by
  match l with
  | [] => simp [chunkSlices, chunkCounts]
  | x :: xs =>
    rw [chunkSlices, chunkCounts]
    simp only [List.map_cons, List.length_take, List.length_drop]
    rw [chunkSlices_map_length ((x :: xs).drop chunkSize)]
    simp only [List.length_drop]
    have : (x :: xs).length ≠ 0 := by simp
    rw [if_neg this]
    congr 1
    by_cases h : (x :: xs).length ≤ chunkSize
    · rw [inf_eq_min, min_eq_right h, if_pos h]
    · rw [inf_eq_min, min_eq_left (le_of_not_le h), if_neg h]
termination_by l.length
decreasing_by simp [chunkSize]; omega

/-- The chunk counts of a collection of size `n` sum to `n`. -/
lemma chunkCounts_sum (n : Nat) : (chunkCounts n).sum = n := by
  rw [chunkCounts]
  by_cases h : n = 0
  · simp [h]
  · rw [if_neg h]
    simp only [List.sum_cons]
    rw [chunkCounts_sum (n - chunkSize)]
    split <;> omega
termination_by n
decreasing_by simp [chunkSize]; omega

/-- The chunk-count list is empty exactly for an empty collection. -/
lemma chunkCounts_eq_nil (n : Nat) : chunkCounts n = [] ↔ n = 0 := by
  rw [chunkCounts]
  by_cases h : n = 0
  · simp [h]
  · simp [h]

/-- Dropping the last element of a cons with a nonempty tail. -/
lemma dropLast_cons_of_ne_nil {α : Type} (a : α) {l : List α} (h : l ≠ []) :
    (a :: l).dropLast = a :: l.dropLast := by
  cases l with
  | nil => exact absurd rfl h
  | cons b bs => rfl

/-- Every chunk count except possibly the last equals the partition size. -/
lemma chunkCounts_dropLast (n : Nat) : ∀ x ∈ (chunkCounts n).dropLast, x = chunkSize := by
  rw [chunkCounts]
  by_cases h : n = 0
  · simp [h]
  · rw [if_neg h]
    by_cases h2 : chunkCounts (n - chunkSize) = []
    · simp [h2]
    · rw [dropLast_cons_of_ne_nil _ h2]
      intro x hx
      rcases List.mem_cons.mp hx with hx | hx
      · subst hx
        have hn : n - chunkSize ≠ 0 := fun h0 => h2 ((chunkCounts_eq_nil _).mpr h0)
        split <;> omega
      · exact chunkCounts_dropLast (n - chunkSize) x hx
termination_by n
decreasing_by simp [chunkSize]; omega

/-- Concrete chunk counts for 8001 records. -/
lemma chunkCounts_8001 : chunkCounts 8001 = [4000, 4000, 1] := by
  have h0 : chunkCounts 0 = [] := by rw [chunkCounts]; simp
  have h1 : chunkCounts 1 = [1] := by rw [chunkCounts]; norm_num [chunkSize, h0]
  have h2 : chunkCounts 4001 = [4000, 1] := by rw [chunkCounts]; norm_num [chunkSize, h1]
  rw [chunkCounts]
  norm_num [chunkSize, h2]

/-- The chunking loop on a single record produces one singleton slice. -/
lemma chunkSlices_one {α : Type} (x : α) : chunkSlices [x] = [[x]] := by
  rw [chunkSlices]
  rw [List.take_of_length_le (by simp [chunkSize]), List.drop_eq_nil_of_le (by simp [chunkSize])]
  rw [chunkSlices]

/-- Mapping a function of the payload over an enumeration forgets the
indices. -/
lemma enumFrom_map_snd {α β : Type} (f : α → β) :
    ∀ (n : Nat) (l : List α), (List.enumFrom n l).map (fun p => f p.2) = l.map f := by
  intro n l
  induction l generalizing n with
  | nil => rfl
  | cons x xs ih => simp [List.enumFrom, ih]

/-- A run whose writes all succeed publishes everything and exits 0. -/
lemma runWrites_ok (fails : ArtifactPath → Bool) :
    ∀ (ws acc : List ArtifactPath), (∀ p ∈ ws, fails p = false) →
      runWrites fails ws acc = { written := acc ++ ws, exitCode := 0 } := by
  intro ws
  induction ws with
  | nil => intro acc _; simp [runWrites]
  | cons p rest ih =>
    intro acc h
    rw [runWrites]
    rw [h p (by simp)]
    simp only [Bool.false_eq_true, if_false]
    rw [ih (acc ++ [p]) (fun q hq => h q (by simp [hq]))]
    simp

/-- A run with at least one failing write exits 1 and has published exactly
the prefix of artifacts before the first failure. -/
lemma runWrites_fail (fails : ArtifactPath → Bool) :
    ∀ (ws acc : List ArtifactPath), (∃ p ∈ ws, fails p = true) →
      (runWrites fails ws acc).exitCode = 1 ∧
      (runWrites fails ws acc).written = acc ++ ws.takeWhile (fun p => ¬ fails p) := by
  intro ws
  induction ws with
  | nil => intro acc h; simp at h
  | cons p rest ih =>
    intro acc h
    rw [runWrites]
    by_cases hp : fails p = true
    · rw [if_pos hp]
      constructor
      · rfl
      · simp [List.takeWhile, hp]
    · rw [if_neg hp]
      have hrest : ∃ q ∈ rest, fails q = true := by
        rcases h with ⟨q, hq, hfq⟩
        rcases List.mem_cons.mp hq with rfl | hq2
        · exact absurd hfq hp
        · exact ⟨q, hq2, hfq⟩
      rcases ih (acc ++ [p]) hrest with ⟨h1, h2⟩
      refine ⟨h1, ?_⟩
      rw [h2]
      simp [List.takeWhile, Bool.not_eq_true, hp, List.append_assoc]

/-- The chunk counts of the manifest are the chunk counts of the input
length. -/
lemma mkChunksMeta_map_count (enriched : List EnrichedRecord) :
    (mkChunksMeta enriched).map ChunkMeta.count = chunkCounts enriched.length := by
  unfold mkChunksMeta
  rw [List.map_map, List.enum_eq_enumFrom]
  have hcomp :
      (ChunkMeta.count ∘ fun p : Nat × List EnrichedRecord =>
        ({ filename := p.1 + 1, count := p.2.length } : ChunkMeta)) =
      fun p : Nat × List EnrichedRecord => List.length p.2 := rfl
  rw [hcomp, enumFrom_map_snd List.length 0 (chunkSlices enriched)]
  exact chunkSlices_map_length enriched

/-- The output record of one pricing row carries that row's
(description, identifier) key. -/
lemma recKey_enrichOne (openIdx : OpenIdx) (med : MedEntry) :
    recKey (enrichOne openIdx med) = medKey med := by
  simp only [enrichOne]
  split <;> rfl

/-! ### Example data used by the concrete theorems -/

/-- Shorthand for character-list literals. -/
def strL (x : String) : List Char := x.data

/-- Reference item whose brand name matches the example description and whose
digits variant (length 9) occurs inside the example identifier. -/
def exItem1 : OpenFdaItem :=
  { product_ndc := strL "123-456-789", brand_name := strL "ASPIRIN",
    generic_name := strL "aspirin", active_ingredients := [], dosage_form := [],
    route := [], labeler_name := [] }

/-- Reference item with an empty brand name whose digits variant (length 10)
is the whole example identifier. -/
def exItem2 : OpenFdaItem :=
  { product_ndc := strL "1234567890", brand_name := [], generic_name := [],
    active_ingredients := [], dosage_form := [], route := [], labeler_name := [] }

/-- Index over the two example reference items. -/
def exIdx1 : OpenIdx := buildOpenFdaIndexes [exItem1, exItem2]

/-- Example pricing row matching both example reference items. -/
def exMed1 : MedEntry :=
  { ndc_description := strL "ASPIRIN 100MG", ndc := strL "1234567890",
    nadac_per_unit := some (strL "0.5"), effective_date := none, pricing_unit := none,
    pharmacy_type_indicator := none, otc := none, explanation_code := none,
    classification_for_rate_setting := none,
    corresponding_generic_drug_nadac_per_unit := none,
    corresponding_generic_drug_effective_date := none, as_of_date := none }

/-- The empty reference index (degenerate but valid run). -/
def exIdxEmpty : OpenIdx := buildOpenFdaIndexes []

/-- Example pricing row with every native field populated; it matches nothing
in the empty index. -/
def exMed6 : MedEntry :=
  { ndc_description := strL "IBUPROFEN 200MG TAB", ndc := strL "00000111122",
    nadac_per_unit := some (strL "1.23"), effective_date := some (strL "2024-01-01"),
    pricing_unit := some (strL "EA"), pharmacy_type_indicator := some (strL "C/I"),
    otc := some (strL "Y"), explanation_code := some (strL "1"),
    classification_for_rate_setting := some (strL "G"),
    corresponding_generic_drug_nadac_per_unit := some (strL "0.9"),
    corresponding_generic_drug_effective_date := some (strL "2023-12-01"),
    as_of_date := some (strL "2024-02-01") }

/-- A second pricing row with a key distinct from `exMed6`. -/
def exMed3b : MedEntry :=
  { ndc_description := strL "NAPROXEN 500MG TAB", ndc := strL "55555666677",
    nadac_per_unit := none, effective_date := none, pricing_unit := none,
    pharmacy_type_indicator := none, otc := none, explanation_code := none,
    classification_for_rate_setting := none,
    corresponding_generic_drug_nadac_per_unit := none,
    corresponding_generic_drug_effective_date := none, as_of_date := none }

/-- A default enriched record for size-driven scenarios. -/
def defaultRec : EnrichedRecord := EnrichedRecord.unmatched [] []

/-! ### C3: coverage of the consolidated output and its partitions -/

/-- C3: every deduplicated PriceEntry appears exactly once, in input order,
in the consolidated enriched output (its key sequence is the input key
sequence), and concatenating the partition slices in manifest order
reconstructs the consolidated output exactly. -/
theorem spec_c3_coverage (uniqueMed : List MedEntry) (openIdx : OpenIdx)
    (hnd : (uniqueMed.map medKey).Nodup) :
    (enrichMedicaidWithOpenFda uniqueMed openIdx).map recKey = uniqueMed.map medKey ∧
    ((enrichMedicaidWithOpenFda uniqueMed openIdx).map recKey).Nodup ∧
    (∀ med ∈ uniqueMed,
      medKey med ∈ (enrichMedicaidWithOpenFda uniqueMed openIdx).map recKey) ∧
    (chunkSlices (enrichMedicaidWithOpenFda uniqueMed openIdx)).flatten
      = enrichMedicaidWithOpenFda uniqueMed openIdx := by
  have hmap : (enrichMedicaidWithOpenFda uniqueMed openIdx).map recKey
      = uniqueMed.map medKey := by
    unfold enrichMedicaidWithOpenFda
    rw [List.map_map]
    exact List.map_congr_left (fun med _ => recKey_enrichOne openIdx med)
  refine ⟨hmap, ?_, ?_, chunkSlices_flatten _⟩
  · rw [hmap]; exact hnd
  · intro med hmed
    rw [hmap]
    exact List.mem_map_of_mem medKey hmed

/-- C3 witness: the coverage theorem applied to a concrete two-row input over
the empty index. -/
theorem spec_c3_coverage_witness :
    (enrichMedicaidWithOpenFda [exMed6, exMed3b] exIdxEmpty).map recKey
      = [exMed6, exMed3b].map medKey ∧
    ((enrichMedicaidWithOpenFda [exMed6, exMed3b] exIdxEmpty).map recKey).Nodup ∧
    (∀ med ∈ [exMed6, exMed3b],
      medKey med ∈ (enrichMedicaidWithOpenFda [exMed6, exMed3b] exIdxEmpty).map recKey) ∧
    (chunkSlices (enrichMedicaidWithOpenFda [exMed6, exMed3b] exIdxEmpty)).flatten
      = enrichMedicaidWithOpenFda [exMed6, exMed3b] exIdxEmpty :=
  spec_c3_coverage [exMed6, exMed3b] exIdxEmpty (by decide)

/-! ### C4: manifest consistency -/

/-- C4: the manifest total equals the sum of the per-chunk counts, the
declared number of chunks equals the length of the chunk list, every chunk
except possibly the last holds exactly 4000 records, and an input of 8001
records yields 3 chunks of counts 4000, 4000, 1. -/
theorem spec_c4_manifest (enriched : List EnrichedRecord) :
    (mkManifest enriched).total = ((mkManifest enriched).chunks.map ChunkMeta.count).sum ∧
    (mkManifest enriched).numberOfChunks = (mkManifest enriched).chunks.length ∧
    (∀ c ∈ (mkManifest enriched).chunks.dropLast, c.count = 4000) ∧
    (enriched.length = 8001 →
      (mkManifest enriched).numberOfChunks = 3 ∧
      (mkManifest enriched).chunks.map ChunkMeta.count = [4000, 4000, 1]) := by
  have hcounts : (mkManifest enriched).chunks.map ChunkMeta.count
      = chunkCounts enriched.length := mkChunksMeta_map_count enriched
  refine ⟨?_, rfl, ?_, ?_⟩
  · rw [hcounts, chunkCounts_sum]
    rfl
  · intro c hc
    have hmem : c.count ∈ ((mkManifest enriched).chunks.map ChunkMeta.count).dropLast := by
      rw [← List.map_dropLast]
      exact List.mem_map_of_mem ChunkMeta.count hc
    rw [hcounts] at hmem
    have := chunkCounts_dropLast enriched.length c.count hmem
    simpa [chunkSize] using this
  · intro h8001
    constructor
    · have hlen : (mkManifest enriched).numberOfChunks
          = ((mkManifest enriched).chunks.map ChunkMeta.count).length := by
        simp [mkManifest]
      rw [hlen, hcounts, h8001, chunkCounts_8001]
      rfl
    · rw [hcounts, h8001, chunkCounts_8001]

/-- C4 witness: the manifest theorem applied to a concrete input of 8001
records. -/
theorem spec_c4_manifest_witness :
    (mkManifest (List.replicate 8001 defaultRec)).numberOfChunks = 3 ∧
    (mkManifest (List.replicate 8001 defaultRec)).chunks.map ChunkMeta.count
      = [4000, 4000, 1] :=
  (spec_c4_manifest (List.replicate 8001 defaultRec)).2.2.2 (List.length_replicate 8001 defaultRec)

/-! ### C2: two-phase matching -/

/-- A matcher property holding of every freshly formatted matcher and of the
incoming state is preserved by the shared push loop. -/
lemma pushMatches_preserve (P : Matcher → Prop) (entries : List Entry) (mode : MatchMode)
    (hfmt : ∀ e ∈ entries, ∀ v t, P (formatOpenFdaMatcher e v t mode)) :
    ∀ (arr : List IndexRec) (st : MatchState), (∀ m ∈ st.1, P m) →
      ∀ m ∈ (pushMatches entries mode arr st).1, P m := by
  intro arr
  induction arr with
  | nil => intro st hst; exact hst
  | cons r rest ih =>
    intro st hst
    rw [pushMatches]
    apply ih
    by_cases hsig : (r.idx, r.variant, r.vtype) ∈ st.2
    · rw [if_pos hsig]; exact hst
    · rw [if_neg hsig]
      cases hget : entries.get? r.idx with
      | some e =>
        intro m hm
        rcases List.mem_append.mp hm with hm1 | hm2
        · exact hst m hm1
        · rw [List.mem_singleton.mp hm2]
          exact hfmt e (List.get?_mem hget) r.variant r.vtype
      | none => exact hst

/-- A matcher property holding of every freshly formatted forward matcher
holds of every matcher produced by the forward phase. -/
lemma forwardPhase_preserve (P : Matcher → Prop) (medDigits : List Char) (openIdx : OpenIdx)
    (hfmt : ∀ e ∈ openIdx.entries, ∀ v t, P (formatOpenFdaMatcher e v t MatchMode.forward)) :
    ∀ m ∈ (forwardPhase medDigits openIdx).1, P m := by
  simp only [forwardPhase]
  refine foldl_preserve (fun st : MatchState => ∀ m ∈ st.1, P m) _ ?_ _ ([], []) ?_
  · intro st L hst
    cases hget : jsGet openIdx.ndcByLength L with
    | none => simpa [hget] using hst
    | some mapL =>
      simp only [hget]
      refine foldl_preserve (fun st : MatchState => ∀ m ∈ st.1, P m) _ ?_ _ st hst
      intro st2 i hst2
      cases hget2 : jsGet mapL ((medDigits.drop i).take L) with
      | none => simpa [hget2] using hst2
      | some arr =>
        simp only [hget2]
        exact pushMatches_preserve P openIdx.entries MatchMode.forward hfmt arr st2 hst2
  · intro m hm
    simp at hm

/-- A matcher property holding of the incoming state and of every freshly
formatted reverse matcher holds of every matcher produced by the reverse
phase. -/
lemma reversePhase_preserve (P : Matcher → Prop) (medDigits : List Char) (openIdx : OpenIdx)
    (st : MatchState)
    (hfmt : ∀ e ∈ openIdx.entries, ∀ v t, P (formatOpenFdaMatcher e v t MatchMode.reverse))
    (hst : ∀ m ∈ st.1, P m) :
    ∀ m ∈ (reversePhase medDigits openIdx st).1, P m := by
  simp only [reversePhase]
  refine foldl_preserve (fun st : MatchState => ∀ m ∈ st.1, P m) _ ?_ _ st hst
  intro st1 L hst1
  cases hget : jsGet openIdx.ndcByLength L with
  | none => simpa [hget] using hst1
  | some mapL =>
    simp only [hget]
    refine foldl_preserve (fun st : MatchState => ∀ m ∈ st.1, P m) _ ?_ _ st1 hst1
    intro st2 kv hst2
    by_cases hinc : includesB medDigits kv.1
    · simp only [hinc, if_true]
      exact pushMatches_preserve P openIdx.entries MatchMode.reverse hfmt kv.2 st2 hst2
    · simpa [hinc] using hst2

/-- C2: for an identifier with a non-empty digit string, the result of
`collectOpenFdaNdcMatches` is exactly the forward-phase output whenever the
forward phase found anything (the reverse phase runs only on an empty forward
result), and the returned list is all-forward or all-reverse, never mixed. -/
theorem spec_c2_twophase (ndcOrig : List Char) (openIdx : OpenIdx)
    (hne : ¬ (normalizeMedNdc ndcOrig).isEmpty = true) :
    ((forwardPhase (normalizeMedNdc ndcOrig) openIdx).1 ≠ [] →
      collectOpenFdaNdcMatches ndcOrig openIdx
        = (forwardPhase (normalizeMedNdc ndcOrig) openIdx).1 ∧
      ∀ m ∈ collectOpenFdaNdcMatches ndcOrig openIdx, m.matchMode = MatchMode.forward) ∧
    ((forwardPhase (normalizeMedNdc ndcOrig) openIdx).1 = [] →
      collectOpenFdaNdcMatches ndcOrig openIdx
        = (reversePhase (normalizeMedNdc ndcOrig) openIdx
            (forwardPhase (normalizeMedNdc ndcOrig) openIdx)).1) ∧
    ((∀ m ∈ collectOpenFdaNdcMatches ndcOrig openIdx, m.matchMode = MatchMode.forward) ∨
      (∀ m ∈ collectOpenFdaNdcMatches ndcOrig openIdx, m.matchMode = MatchMode.reverse)) := by
  have hfwd : ∀ m ∈ (forwardPhase (normalizeMedNdc ndcOrig) openIdx).1,
      m.matchMode = MatchMode.forward :=
    forwardPhase_preserve _ _ _ (fun _ _ _ _ => rfl)
  by_cases hlen : 0 < (forwardPhase (normalizeMedNdc ndcOrig) openIdx).1.length
  · have hcoll : collectOpenFdaNdcMatches ndcOrig openIdx
        = (forwardPhase (normalizeMedNdc ndcOrig) openIdx).1 := by
      simp only [collectOpenFdaNdcMatches]
      rw [if_neg hne, if_pos hlen]
    refine ⟨fun _ => ⟨hcoll, ?_⟩, fun hnil => ?_, Or.inl ?_⟩
    · rw [hcoll]; exact hfwd
    · rw [hnil] at hlen; simp at hlen
    · rw [hcoll]; exact hfwd
  · have hnil : (forwardPhase (normalizeMedNdc ndcOrig) openIdx).1 = [] := by
      cases hval : (forwardPhase (normalizeMedNdc ndcOrig) openIdx).1 with
      | nil => rfl
      | cons a as => rw [hval] at hlen; simp at hlen
    have hcoll : collectOpenFdaNdcMatches ndcOrig openIdx
        = (reversePhase (normalizeMedNdc ndcOrig) openIdx
            (forwardPhase (normalizeMedNdc ndcOrig) openIdx)).1 := by
      simp only [collectOpenFdaNdcMatches]
      rw [if_neg hne, if_neg hlen]
    refine ⟨fun hne2 => absurd hnil hne2, fun _ => hcoll, Or.inr ?_⟩
    rw [hcoll]
    refine reversePhase_preserve _ _ _ _ (fun _ _ _ _ => rfl) ?_
    rw [hnil]
    intro m hm
    simp at hm

/-- C2 witness: the two-phase theorem applied to the concrete example, whose
forward phase is non-empty. -/
theorem spec_c2_twophase_witness :
    collectOpenFdaNdcMatches exMed1.ndc exIdx1
      = (forwardPhase (normalizeMedNdc exMed1.ndc) exIdx1).1 ∧
    ∀ m ∈ collectOpenFdaNdcMatches exMed1.ndc exIdx1, m.matchMode = MatchMode.forward :=
  (spec_c2_twophase exMed1.ndc exIdx1 (by decide)).1 (by decide)

/-! ### C5: the semantic-filter invariant -/

/-- Every matcher returned by the linkage resolver carries the brand name of
one of the indexed reference entries. -/
lemma collect_brand_from_entry (ndcOrig : List Char) (openIdx : OpenIdx) :
    ∀ m ∈ collectOpenFdaNdcMatches ndcOrig openIdx,
      ∃ e ∈ openIdx.entries, m.brandName = e.brandName := by
  simp only [collectOpenFdaNdcMatches]
  by_cases he : (normalizeMedNdc ndcOrig).isEmpty = true
  · rw [if_pos he]
    intro m hm
    simp at hm
  · rw [if_neg he]
    by_cases hlen : 0 < (forwardPhase (normalizeMedNdc ndcOrig) openIdx).1.length
    · rw [if_pos hlen]
      exact forwardPhase_preserve _ _ _ (fun e he2 _ _ => ⟨e, he2, rfl⟩)
    · rw [if_neg hlen]
      exact reversePhase_preserve _ _ _ _ (fun e he2 _ _ => ⟨e, he2, rfl⟩)
        (forwardPhase_preserve _ _ _ (fun e he2 _ _ => ⟨e, he2, rfl⟩))

/-- Every element of the best-match selection is an element of the input with
the `bestMatch` flag set. -/
lemma bestSelect_mem (l : List Matcher) :
    ∀ m ∈ bestSelect l, ∃ m0 ∈ l, m = { m0 with bestMatch := true } := by
  intro m hm
  simp only [bestSelect] at hm
  by_cases h : 0 < l.length
  · rw [if_pos h] at hm
    rcases List.mem_map.mp hm with ⟨m0, hm0, heq⟩
    exact ⟨m0, List.mem_of_mem_filter hm0, heq.symm⟩
  · rw [if_neg h] at hm
    have : l = [] := List.length_eq_zero.mp (by omega)
    rw [this] at hm
    simp at hm

/-- What surviving the semantic filter means: a non-blank brand name and a
shared token with the description token set. -/
lemma semanticFilter_true (descTokens : List (List Char)) (m : Matcher)
    (h : semanticFilter descTokens m = true) :
    0 < (normalizeWhitespaceLower m.brandName).length ∧
    ∃ t, t ∈ tokenizeWords m.brandName ∧ t ∈ descTokens := by
  simp only [semanticFilter] at h
  by_cases hb : 0 < (normalizeWhitespaceLower m.brandName).length
  · rw [if_pos hb] at h
    rcases List.any_eq_true.mp h with ⟨t, ht, hdec⟩
    exact ⟨hb, t, ht, of_decide_eq_true hdec⟩
  · rw [if_neg hb] at h
    exact absurd h (by simp)

/-- Every token produced by `tokenizeWords` has length at least 3. -/
lemma tokenizeWords_three (s t : List Char) (h : t ∈ tokenizeWords s) : 3 ≤ t.length := by
  have := List.of_mem_filter h
  simpa using this

/-- Decomposition of a matched output record: its match list is the
best-match selection over the semantically filtered candidates, and it is
non-empty. -/
lemma enrichOne_matched (openIdx : OpenIdx) (med med' : MedEntry) (ms : List Matcher)
    (h : enrichOne openIdx med = EnrichedRecord.matched med' ms) :
    ms = bestSelect ((collectOpenFdaNdcMatches med.ndc openIdx).filter
      (semanticFilter (tokenizeWords med.ndc_description))) ∧ 0 < ms.length := by
  simp only [enrichOne] at h
  split at h
  · rename_i hpos
    injection h with h1 h2
    exact ⟨h2.symm, h2 ▸ hpos⟩
  · exact absurd h (by simp)

/-- C5: every match surviving the semantic filter (hence every match attached
to a matched record) has a non-blank brand name, shares a token of length at
least 3 with the price entry's description, and that brand name is the one of
an indexed reference entry. -/
theorem spec_c5_token_overlap (openIdx : OpenIdx) (med med' : MedEntry) (ms : List Matcher)
    (h : enrichOne openIdx med = EnrichedRecord.matched med' ms) :
    ∀ m ∈ ms,
      0 < (normalizeWhitespaceLower m.brandName).length ∧
      (∃ t, t ∈ tokenizeWords m.brandName ∧ t ∈ tokenizeWords med.ndc_description ∧
        3 ≤ t.length) ∧
      ∃ e ∈ openIdx.entries, m.brandName = e.brandName := by
  rcases enrichOne_matched openIdx med med' ms h with ⟨hms, _⟩
  intro m hm
  rw [hms] at hm
  rcases bestSelect_mem _ m hm with ⟨m0, hm0, heq⟩
  have hbrand : m.brandName = m0.brandName := by rw [heq]
  have hfl := List.of_mem_filter hm0
  rcases semanticFilter_true _ _ hfl with ⟨hb, t, ht1, ht2⟩
  rcases collect_brand_from_entry med.ndc openIdx m0 (List.mem_of_mem_filter hm0)
    with ⟨e, he, hbe⟩
  rw [hbrand]
  exact ⟨hb, ⟨t, ht1, ht2, tokenizeWords_three _ _ ht1⟩, ⟨e, he, hbe⟩⟩

/-- The single surviving matcher of the concrete example. -/
def exBest1 : Matcher :=
  { productNdc := strL "123-456-789", normalizedProductNdc := strL "123456789",
    matchedVariantType := VType.digits, matchMode := MatchMode.forward,
    brandName := strL "ASPIRIN", genericName := strL "aspirin", dosageForm := none,
    routes := [], dosageStrength := none, activeIngredientsDetailed := none,
    labelerName := none, bestMatch := true }

/-- C5 witness: the token-overlap theorem applied to the concrete matched
example, instantiated at its surviving matcher. -/
theorem spec_c5_token_overlap_witness :
    0 < (normalizeWhitespaceLower exBest1.brandName).length ∧
    (∃ t, t ∈ tokenizeWords exBest1.brandName ∧ t ∈ tokenizeWords exMed1.ndc_description ∧
      3 ≤ t.length) ∧
    ∃ e ∈ exIdx1.entries, exBest1.brandName = e.brandName :=
  spec_c5_token_overlap exIdx1 exMed1 exMed1 (matchListOf (enrichOne exIdx1 exMed1))
    (by decide) exBest1 (by decide)

/-! ### C1: the specificity invariant (corrected) -/

/-- The seed of a maximum fold is a lower bound of the fold. -/
lemma foldl_max_init_le : ∀ (l : List Nat) (a : Nat), a ≤ l.foldl Nat.max a := by
  intro l
  induction l with
  | nil => intro a; exact Nat.le_refl a
  | cons x xs ih =>
    intro a
    exact Nat.le_trans (Nat.le_max_left a x) (ih (Nat.max a x))

/-- Every element of a list is bounded by a maximum fold over it. -/
lemma le_foldl_max : ∀ (l : List Nat) (a x : Nat), x ∈ l → x ≤ l.foldl Nat.max a := by
  intro l
  induction l with
  | nil => intro a x hx; simp at hx
  | cons y ys ih =>
    intro a x hx
    rcases List.mem_cons.mp hx with rfl | hx2
    · exact Nat.le_trans (Nat.le_max_right a x) (foldl_max_init_le ys (Nat.max a x))
    · exact ih (Nat.max a y) x hx2

/-- The length selected by `bestSelect`, shared by every survivor. -/
def bestLen (l : List Matcher) : Nat :=
  if ((l.map matcherLen).filter (fun L => 0 < L)).isEmpty then 0
  else ((l.map matcherLen).filter (fun L => 0 < L)).foldl Nat.max 0

/-- Every matcher kept by `bestSelect` has the selected length. -/
lemma bestSelect_len (l : List Matcher) (m : Matcher) (hm : m ∈ bestSelect l) :
    matcherLen m = bestLen l := by
  simp only [bestSelect] at hm
  by_cases h : 0 < l.length
  · rw [if_pos h] at hm
    rcases List.mem_map.mp hm with ⟨m0, hm0, heq⟩
    have hlen0 : matcherLen m0 = bestLen l := by
      have := List.of_mem_filter hm0
      simpa [bestLen] using this
    have : matcherLen m = matcherLen m0 := by rw [← heq]; rfl
    rw [this, hlen0]
  · rw [if_neg h] at hm
    have : l = [] := List.length_eq_zero.mp (by omega)
    rw [this] at hm
    simp at hm

/-- Every input matcher's length is bounded by the selected length. -/
lemma matcherLen_le_bestLen (l : List Matcher) (c : Matcher) (hc : c ∈ l) :
    matcherLen c ≤ bestLen l := by
  by_cases hz : 0 < matcherLen c
  · have hmem : matcherLen c ∈ (l.map matcherLen).filter (fun L => 0 < L) := by
      apply List.mem_filter.mpr
      exact ⟨List.mem_map_of_mem matcherLen hc, by simpa using hz⟩
    have hne : ¬ ((l.map matcherLen).filter (fun L => 0 < L)).isEmpty = true := by
      intro habs
      rw [List.isEmpty_iff] at habs
      rw [habs] at hmem
      simp at hmem
    rw [bestLen, if_neg hne]
    exact le_foldl_max _ 0 _ hmem
  · omega

/-- C1 (corrected): the match list of a matched record is non-empty, all its
entries share one variant length, and that length is maximal among the
record's post-filter candidates (the candidates surviving the semantic
filter). -/
theorem spec_c1_specificity (openIdx : OpenIdx) (med med' : MedEntry) (ms : List Matcher)
    (h : enrichOne openIdx med = EnrichedRecord.matched med' ms) :
    ms ≠ [] ∧
    (∀ m ∈ ms, ∀ m' ∈ ms, matcherLen m = matcherLen m') ∧
    (∀ m ∈ ms, ∀ c ∈ (collectOpenFdaNdcMatches med.ndc openIdx).filter
        (semanticFilter (tokenizeWords med.ndc_description)),
      matcherLen c ≤ matcherLen m) := by
  rcases enrichOne_matched openIdx med med' ms h with ⟨hms, hpos⟩
  refine ⟨?_, ?_, ?_⟩
  · intro habs
    rw [habs] at hpos
    simp at hpos
  · intro m hm m' hm'
    rw [hms] at hm hm'
    rw [bestSelect_len _ m hm, bestSelect_len _ m' hm']
  · intro m hm c hc
    rw [hms] at hm
    rw [bestSelect_len _ m hm]
    exact matcherLen_le_bestLen _ c hc

/-- C1 counterexample: over the two example reference items, the pre-filter
candidates of the example pricing row have variant lengths 9 and 10 (maximum
10), the semantic filter removes the length-10 candidate (blank brand), and
the emitted match list holds one entry of length 9 — so the attached length
is not the pre-filter maximum. -/
theorem spec_c1_counterexample :
    (collectOpenFdaNdcMatches exMed1.ndc exIdx1).map matcherLen = [9, 10] ∧
    ((collectOpenFdaNdcMatches exMed1.ndc exIdx1).filter
        (semanticFilter (tokenizeWords exMed1.ndc_description))).map matcherLen = [9] ∧
    (matchListOf (enrichOne exIdx1 exMed1)).map matcherLen = [9] := by
  decide

/-- C1 witness: the corrected specificity theorem applied to the concrete
matched example. -/
theorem spec_c1_specificity_witness :
    matchListOf (enrichOne exIdx1 exMed1) ≠ [] ∧
    (∀ m ∈ matchListOf (enrichOne exIdx1 exMed1),
      ∀ m' ∈ matchListOf (enrichOne exIdx1 exMed1), matcherLen m = matcherLen m') ∧
    (∀ m ∈ matchListOf (enrichOne exIdx1 exMed1),
      ∀ c ∈ (collectOpenFdaNdcMatches exMed1.ndc exIdx1).filter
          (semanticFilter (tokenizeWords exMed1.ndc_description)),
        matcherLen c ≤ matcherLen m) :=
  spec_c1_specificity exIdx1 exMed1 exMed1 (matchListOf (enrichOne exIdx1 exMed1))
    (by decide)

/-! ### C6: unmatched records (corrected) -/

/-- C6 counterexample: the example pricing row has a populated unit price and
pricing unit, matches nothing over the empty index, and its output record is
the short unmatched object, whose `nadac_per_unit` and `pricing_unit`
properties are absent — the native pricing fields are not retained. -/
theorem spec_c6_counterexample :
    enrichOne exIdxEmpty exMed6
      = EnrichedRecord.unmatched exMed6.ndc_description exMed6.ndc ∧
    exMed6.nadac_per_unit = some (strL "1.23") ∧
    recNadacPerUnit (enrichOne exIdxEmpty exMed6) = none ∧
    exMed6.pricing_unit = some (strL "EA") ∧
    recPricingUnit (enrichOne exIdxEmpty exMed6) = none := by
  decide

/-- C6 (corrected): a pricing row whose filtered candidate list is empty is
emitted as the short unmatched record — it carries no match list, retains
exactly its description and identifier (all other native fields are dropped),
and is never dropped from the consolidated output. -/
theorem spec_c6_unmatched (openIdx : OpenIdx) (med : MedEntry)
    (h : (collectOpenFdaNdcMatches med.ndc openIdx).filter
        (semanticFilter (tokenizeWords med.ndc_description)) = []) :
    enrichOne openIdx med = EnrichedRecord.unmatched med.ndc_description med.ndc ∧
    matchListOf (enrichOne openIdx med) = [] ∧
    recKey (enrichOne openIdx med) = (med.ndc_description, med.ndc) ∧
    ∀ uniqueMed : List MedEntry, med ∈ uniqueMed →
      EnrichedRecord.unmatched med.ndc_description med.ndc
        ∈ enrichMedicaidWithOpenFda uniqueMed openIdx := by
  have h1 : enrichOne openIdx med
      = EnrichedRecord.unmatched med.ndc_description med.ndc := by
    simp only [enrichOne]
    rw [h]
    simp [bestSelect]
  refine ⟨h1, by rw [h1]; rfl, by rw [h1]; rfl, ?_⟩
  intro uniqueMed hmem
  have := List.mem_map_of_mem (enrichOne openIdx) hmem
  rw [h1] at this
  exact this

/-- C6 witness: the corrected unmatched-record theorem applied to the example
row over the empty index. -/
theorem spec_c6_unmatched_witness :
    enrichOne exIdxEmpty exMed6
      = EnrichedRecord.unmatched exMed6.ndc_description exMed6.ndc ∧
    matchListOf (enrichOne exIdxEmpty exMed6) = [] ∧
    recKey (enrichOne exIdxEmpty exMed6) = (exMed6.ndc_description, exMed6.ndc) ∧
    ∀ uniqueMed : List MedEntry, exMed6 ∈ uniqueMed →
      EnrichedRecord.unmatched exMed6.ndc_description exMed6.ndc
        ∈ enrichMedicaidWithOpenFda uniqueMed exIdxEmpty :=
  spec_c6_unmatched exIdxEmpty exMed6 (by decide)

/-! ### Index structure lemmas -/

/-- All records stored in one length bucket. -/
def bucketRecs (m : InnerMap) : List IndexRec := m.flatMap (fun q => q.2)

/-- All records stored in the whole index. -/
def indexRecs (nbl : NdcByLength) : List IndexRec := nbl.flatMap (fun p => bucketRecs p.2)

/-- A successful JS-map lookup returns a binding of the map. -/
lemma jsGet_mem {κ ω : Type} [DecidableEq κ] :
    ∀ (m : List (κ × ω)) (k : κ) (v : ω), jsGet m k = some v → (k, v) ∈ m := by
  intro m
  induction m with
  | nil => intro k v h; simp [jsGet] at h
  | cons p rest ih =>
    intro k v h
    rw [jsGet] at h
    by_cases hk : p.1 = k
    · rw [if_pos hk] at h
      injection h with h1
      exact List.mem_cons.mpr (Or.inl (by rw [← hk, ← h1]))
    · rw [if_neg hk] at h
      exact List.mem_cons_of_mem p (ih k v h)

/-- `addToMapArray` adds exactly the pushed record to the bucket's records. -/
lemma bucketRecs_addToMapArray (m : InnerMap) (k : List Char) (v : IndexRec) :
    (bucketRecs (addToMapArray m k v)).Perm (v :: bucketRecs m) := by
  induction m with
  | nil => simp [addToMapArray, bucketRecs]
  | cons q rest ih =>
    match q with
    | (k', arr) =>
      rw [addToMapArray]
      by_cases hk : k' = k
      · rw [if_pos hk]
        simp only [bucketRecs, List.flatMap_cons]
        rw [List.append_assoc]
        exact List.perm_middle
      · rw [if_neg hk]
        simp only [bucketRecs, List.flatMap_cons]
        exact (List.Perm.append_left arr ih).trans List.perm_middle

/-- `indexInsert` adds exactly the inserted record to the index's records. -/
lemma indexRecs_indexInsert (nbl : NdcByLength) (L : Nat) (cur : List Char) (r : IndexRec) :
    (indexRecs (indexInsert nbl L cur r)).Perm (r :: indexRecs nbl) := by
  induction nbl with
  | nil => simp [indexInsert, indexRecs, bucketRecs, addToMapArray]
  | cons p rest ih =>
    match p with
    | (L', m) =>
      rw [indexInsert]
      by_cases hL : L' = L
      · rw [if_pos hL]
        simp only [indexRecs, List.flatMap_cons]
        exact List.Perm.append_right _ (bucketRecs_addToMapArray m cur r)
      · rw [if_neg hL]
        simp only [indexRecs, List.flatMap_cons]
        exact (List.Perm.append_left (bucketRecs m) ih).trans List.perm_middle

/-! ### C10: the length-bucket invariant -/

/-- One length bucket is well formed: every key has the bucket's length and
every record is stored under its own variant string. -/
def BucketOk (L : Nat) (m : InnerMap) : Prop :=
  ∀ q ∈ m, q.1.length = L ∧ ∀ r ∈ q.2, r.variant = q.1

/-- The whole index is well formed. -/
def WellBucketed (nbl : NdcByLength) : Prop :=
  ∀ p ∈ nbl, BucketOk p.1 p.2

/-- Pushing a record under its own variant keeps a bucket well formed. -/
lemma bucketOk_addToMapArray (L : Nat) (m : InnerMap) (cur : List Char) (r : IndexRec)
    (hm : BucketOk L m) (hcur : cur.length = L) (hr : r.variant = cur) :
    BucketOk L (addToMapArray m cur r) := by
  induction m with
  | nil =>
    intro q hq
    simp only [addToMapArray, List.mem_singleton] at hq
    rw [hq]
    exact ⟨hcur, fun r' hr' => by simpa [List.mem_singleton.mp hr'] using hr⟩
  | cons q0 rest ih =>
    match q0 with
    | (k', arr) =>
      rw [addToMapArray]
      by_cases hk : k' = cur
      · rw [if_pos hk]
        intro q hq
        rcases List.mem_cons.mp hq with rfl | hq2
        · rcases hm (k', arr) (by simp) with ⟨hk1, hk2⟩
          refine ⟨hk1, ?_⟩
          intro r' hr'
          rcases List.mem_append.mp hr' with hin | hin
          · exact hk2 r' hin
          · rw [List.mem_singleton.mp hin, hr, hk]
        · exact hm q (List.mem_cons_of_mem _ hq2)
      · rw [if_neg hk]
        intro q hq
        rcases List.mem_cons.mp hq with rfl | hq2
        · exact hm (k', arr) (by simp)
        · exact ih (fun q' hq' => hm q' (List.mem_cons_of_mem _ hq')) q hq2

/-- Inserting a record at its variant's length keeps the index well formed. -/
lemma wellBucketed_indexInsert (nbl : NdcByLength) (cur : List Char) (r : IndexRec)
    (h : WellBucketed nbl) (hr : r.variant = cur) :
    WellBucketed (indexInsert nbl cur.length cur r) := by
  induction nbl with
  | nil =>
    intro p hp
    simp only [indexInsert, List.mem_singleton] at hp
    rw [hp]
    exact bucketOk_addToMapArray _ [] cur r (by intro q hq; simp at hq) rfl hr
  | cons p0 rest ih =>
    match p0 with
    | (L', m) =>
      rw [indexInsert]
      by_cases hL : L' = cur.length
      · rw [if_pos hL]
        intro p hp
        rcases List.mem_cons.mp hp with rfl | hp2
        · exact bucketOk_addToMapArray _ m cur r (by simpa [hL] using h (L', m) (by simp))
            (by rw [hL]) hr
        · exact h p (List.mem_cons_of_mem _ hp2)
      · rw [if_neg hL]
        intro p hp
        rcases List.mem_cons.mp hp with rfl | hp2
        · exact h (L', m) (by simp)
        · exact ih (fun p' hp' => h p' (List.mem_cons_of_mem _ hp')) p hp2

/-- The loop body preserves well-formedness. -/
lemma wellBucketed_stripStep (idx : Nat) (vt : VType) (cur : List Char) (st : BuildState)
    (h : WellBucketed st.1) : WellBucketed (stripStep idx vt cur st).1 := by
  rw [stripStep]
  by_cases hseen : cur ∈ st.2
  · rw [if_pos hseen]; exact h
  · rw [if_neg hseen]; exact wellBucketed_indexInsert st.1 cur ⟨idx, cur, vt⟩ h rfl

/-- The whole stripping loop preserves well-formedness. -/
lemma wellBucketed_stripLoop (idx : Nat) (vt : VType) :
    ∀ (cur : List Char) (st : BuildState), WellBucketed st.1 →
      WellBucketed (stripLoop idx vt cur st).1 := by
  intro cur
  induction cur with
  | nil => intro st h; exact wellBucketed_stripStep idx vt [] st h
  | cons c cs ih =>
    intro st h
    rw [stripLoop]
    have h' := wellBucketed_stripStep idx vt (c :: cs) st h
    by_cases h5 : (c :: cs).length ≤ 5
    · rw [if_pos h5]; exact h'
    · rw [if_neg h5]
      by_cases hc : c ≠ '0'
      · rw [if_pos hc]; exact h'
      · rw [if_neg hc]; exact ih _ h'

/-- Processing one entry preserves well-formedness. -/
lemma wellBucketed_processEntry (nbl : NdcByLength) (idx : Nat) (e : Entry)
    (h : WellBucketed nbl) : WellBucketed (processEntry nbl idx e) := by
  simp only [processEntry]
  refine foldl_preserve (fun st : BuildState => WellBucketed st.1) _ ?_ _ (nbl, []) h
  intro st v hst
  by_cases hv : v.1.isEmpty = true
  · rw [if_pos hv]; exact hst
  · rw [if_neg hv]; exact wellBucketed_stripLoop idx v.2 v.1 st hst

/-- The index built by `buildOpenFdaIndexes` is well formed. -/
lemma wellBucketed_build (items : List OpenFdaItem) :
    WellBucketed (buildOpenFdaIndexes items).ndcByLength := by
  simp only [buildOpenFdaIndexes]
  refine foldl_preserve WellBucketed _ ?_ _ [] ?_
  · intro nbl p h
    exact wellBucketed_processEntry nbl p.1 p.2 h
  · intro p hp
    simp at hp

/-- C10: every variant string stored in the bucket keyed by `L` has length
exactly `L`, and every record of that bucket is stored under its own variant,
so a lookup of a length-`L` substring in bucket `L` can only hit variants of
that exact length. -/
theorem spec_c10_bucket_lengths (items : List OpenFdaItem) (L : Nat) (bucket : InnerMap)
    (key : List Char) (arr : List IndexRec)
    (hb : jsGet (buildOpenFdaIndexes items).ndcByLength L = some bucket)
    (ha : jsGet bucket key = some arr) :
    key.length = L ∧ ∀ r ∈ arr, r.variant = key ∧ r.variant.length = L := by
  have hwb := wellBucketed_build items
  have hpmem := jsGet_mem _ L bucket hb
  have hqmem := jsGet_mem _ key arr ha
  rcases hwb (L, bucket) hpmem (key, arr) hqmem with ⟨hk, hrs⟩
  refine ⟨hk, fun r hr => ?_⟩
  have hv := hrs r hr
  exact ⟨hv, by rw [hv]; exact hk⟩

/-- Reference item for the single-bucket concrete example. -/
def exItem7 : OpenFdaItem :=
  { product_ndc := strL "12345", brand_name := strL "TYLENOL", generic_name := [],
    active_ingredients := [], dosage_form := [], route := [], labeler_name := [] }

/-- C10 witness: the bucket-length theorem applied to the concrete one-item
index, whose bucket 5 holds the single variant. -/
theorem spec_c10_bucket_lengths_witness :
    (strL "12345").length = 5 ∧
    ∀ r ∈ [({ idx := 0, variant := strL "12345", vtype := VType.digits } : IndexRec)],
      r.variant = strL "12345" ∧ r.variant.length = 5 :=
  spec_c10_bucket_lengths [exItem7] 5
    [(strL "12345", [{ idx := 0, variant := strL "12345", vtype := VType.digits }])]
    (strL "12345") [{ idx := 0, variant := strL "12345", vtype := VType.digits }]
    (by decide) (by decide)

/-! ### C7: per-entry deduplication (corrected) -/

/-- The (entry index, variant string) pairs of all index records. -/
def recPairs (nbl : NdcByLength) : List (Nat × List Char) :=
  (indexRecs nbl).map (fun r => (r.idx, r.variant))

/-- Invariant while processing the entry with index `k`: the stored
(entry, variant) pairs are pairwise distinct, and every stored record belongs
to an earlier entry or to entry `k` with its variant in the `seen` set. -/
def EntryInv (k : Nat) (st : BuildState) : Prop :=
  (recPairs st.1).Nodup ∧
  ∀ r ∈ indexRecs st.1, r.idx < k ∨ (r.idx = k ∧ r.variant ∈ st.2)

/-- The records after one loop body are the inserted record (when new) plus
the previous records. -/
lemma stripStep_recs (idx : Nat) (vt : VType) (cur : List Char) (st : BuildState) :
    ∀ r ∈ indexRecs (stripStep idx vt cur st).1,
      r = ⟨idx, cur, vt⟩ ∨ r ∈ indexRecs st.1 := by
  rw [stripStep]
  by_cases hseen : cur ∈ st.2
  · rw [if_pos hseen]
    exact fun r hr => Or.inr hr
  · rw [if_neg hseen]
    intro r hr
    have hperm := indexRecs_indexInsert st.1 cur.length cur ⟨idx, cur, vt⟩
    exact List.mem_cons.mp (hperm.mem_iff.mp hr)

/-- The loop body preserves the per-entry invariant. -/
lemma entryInv_stripStep (k : Nat) (vt : VType) (cur : List Char) (st : BuildState)
    (h : EntryInv k st) : EntryInv k (stripStep k vt cur st) := by
  rw [stripStep]
  by_cases hseen : cur ∈ st.2
  · rw [if_pos hseen]; exact h
  · rw [if_neg hseen]
    rcases h with ⟨hnd, hidx⟩
    have hperm := indexRecs_indexInsert st.1 cur.length cur ⟨k, cur, vt⟩
    have hpairs : (recPairs (indexInsert st.1 cur.length cur ⟨k, cur, vt⟩)).Perm
        ((k, cur) :: recPairs st.1) := by
      have hmapped := hperm.map (fun r : IndexRec => (r.idx, r.variant))
      simpa [recPairs] using hmapped
    constructor
    · refine (List.Perm.nodup_iff hpairs).mpr (List.nodup_cons.mpr ⟨?_, hnd⟩)
      intro habs
      rcases List.mem_map.mp habs with ⟨r, hrmem, hreq⟩
      have h1 : r.idx = k := congrArg Prod.fst hreq
      have h2 : r.variant = cur := congrArg Prod.snd hreq
      rcases hidx r hrmem with hlt | ⟨heq, hv⟩
      · omega
      · exact hseen (h2 ▸ hv)
    · intro r hr
      rcases List.mem_cons.mp (hperm.mem_iff.mp hr) with rfl | hr2
      · exact Or.inr ⟨rfl, List.mem_append_right _ (List.mem_singleton_self cur)⟩
      · rcases hidx r hr2 with hlt | ⟨heq, hv⟩
        · exact Or.inl hlt
        · exact Or.inr ⟨heq, List.mem_append_left _ hv⟩

/-- The whole stripping loop preserves the per-entry invariant. -/
lemma entryInv_stripLoop (k : Nat) (vt : VType) :
    ∀ (cur : List Char) (st : BuildState), EntryInv k st →
      EntryInv k (stripLoop k vt cur st) := by
  intro cur
  induction cur with
  | nil => intro st h; exact entryInv_stripStep k vt [] st h
  | cons c cs ih =>
    intro st h
    simp only [stripLoop]
    have h' := entryInv_stripStep k vt (c :: cs) st h
    by_cases h5 : (c :: cs).length ≤ 5
    · rw [if_pos h5]; exact h'
    · rw [if_neg h5]
      by_cases hc : c ≠ '0'
      · rw [if_pos hc]; exact h'
      · rw [if_neg hc]; exact ih _ h'

/-- Processing one entry keeps the pairs distinct and bumps the index
bound. -/
lemma processEntry_inv (nbl : NdcByLength) (k : Nat) (e : Entry)
    (hnd : (recPairs nbl).Nodup) (hidx : ∀ r ∈ indexRecs nbl, r.idx < k) :
    (recPairs (processEntry nbl k e)).Nodup ∧
    ∀ r ∈ indexRecs (processEntry nbl k e), r.idx < k + 1 := by
  have hstart : EntryInv k (nbl, []) := ⟨hnd, fun r hr => Or.inl (hidx r hr)⟩
  have hstep : ∀ (st : BuildState) (v : List Char × VType), EntryInv k st →
      EntryInv k (if v.1.isEmpty then st else stripLoop k v.2 v.1 st) := by
    intro st v hst
    by_cases hv : v.1.isEmpty = true
    · rw [if_pos hv]; exact hst
    · rw [if_neg hv]; exact entryInv_stripLoop k v.2 v.1 st hst
  have hfin : EntryInv k
      ([(trimList e.ndcDigits, VType.digits),
        (trimList e.ndcZeroFill, VType.zeroFill)].foldl
        (fun st v => if v.1.isEmpty then st else stripLoop k v.2 v.1 st) (nbl, [])) :=
    foldl_preserve (EntryInv k) _ hstep _ (nbl, []) hstart
  rcases hfin with ⟨hnd2, hidx2⟩
  refine ⟨hnd2, ?_⟩
  intro r hr
  rcases hidx2 r hr with hlt | ⟨heq, _⟩
  · omega
  · omega

/-- Folding the entry loop from any starting index keeps the pairs distinct
and bounds every stored entry index. -/
lemma entriesFold_inv :
    ∀ (es : List Entry) (n : Nat) (nbl : NdcByLength),
      (recPairs nbl).Nodup → (∀ r ∈ indexRecs nbl, r.idx < n) →
      (recPairs ((List.enumFrom n es).foldl
        (fun nbl p => processEntry nbl p.1 p.2) nbl)).Nodup ∧
      ∀ r ∈ indexRecs ((List.enumFrom n es).foldl
        (fun nbl p => processEntry nbl p.1 p.2) nbl), r.idx < n + es.length := by
  intro es
  induction es with
  | nil =>
    intro n nbl hnd hidx
    simpa using ⟨hnd, hidx⟩
  | cons e rest ih =>
    intro n nbl hnd hidx
    simp only [List.enumFrom, List.foldl]
    rcases processEntry_inv nbl n e hnd hidx with ⟨hnd1, hidx1⟩
    rcases ih (n + 1) (processEntry nbl n e) hnd1 hidx1 with ⟨hnd2, hidx2⟩
    refine ⟨hnd2, ?_⟩
    intro r hr
    have := hidx2 r hr
    simp only [List.length_cons]
    omega

/-- C7 (corrected): the per-entry `seen` check deduplicates by variant string
alone, regardless of formatting hypothesis, so no two records of the built
index share the same (entry, variant string) pair. -/
theorem spec_c7_dedup_per_entry (items : List OpenFdaItem) :
    (recPairs (buildOpenFdaIndexes items).ndcByLength).Nodup := by
  simp only [buildOpenFdaIndexes, List.enum_eq_enumFrom]
  exact (entriesFold_inv (items.map mkEntry) 0 []
    (by simp [recPairs, indexRecs]) (by intro r hr; simp [indexRecs] at hr)).1

/-- C7 counterexample: for a product code without hyphens the digits-only and
zero-fill normal forms coincide, and the built index holds the shared variant
string once only, under the digits-only hypothesis — not once under each
hypothesis as claimed. -/
theorem spec_c7_counterexample :
    openFdaDigitsKeepZeros exItem7.product_ndc = openFdaHyphenZeroFill exItem7.product_ndc ∧
    (buildOpenFdaIndexes [exItem7]).ndcByLength
      = [(5, [(strL "12345",
          [{ idx := 0, variant := strL "12345", vtype := VType.digits }])])] := by
  decide

/-! ### C8: normalization of the example regulatory code (corrected) -/

/-- Reference item carrying the example regulatory code of the spec. -/
def exItem8 : OpenFdaItem :=
  { product_ndc := strL "00002-3231-30", brand_name := strL "X", generic_name := [],
    active_ingredients := [], dosage_form := [], route := [], labeler_name := [] }

/-- Every record produced by the stripping loop is either an old record, the
loop's starting variant itself, or a leading-zero-stripped variant of length
at least 5 — stripping never goes below the 5-character floor. -/
lemma stripLoop_floor (idx : Nat) (vt : VType) :
    ∀ (cur : List Char) (st : BuildState), ∀ r ∈ indexRecs (stripLoop idx vt cur st).1,
      r ∈ indexRecs st.1 ∨ r.variant = cur ∨ 5 ≤ r.variant.length := by
  intro cur
  induction cur with
  | nil =>
    intro st r hr
    rw [stripLoop] at hr
    rcases stripStep_recs idx vt [] st r hr with rfl | hold
    · exact Or.inr (Or.inl rfl)
    · exact Or.inl hold
  | cons c cs ih =>
    intro st r hr
    simp only [stripLoop] at hr
    by_cases h5 : (c :: cs).length ≤ 5
    · rw [if_pos h5] at hr
      rcases stripStep_recs idx vt (c :: cs) st r hr with rfl | hold
      · exact Or.inr (Or.inl rfl)
      · exact Or.inl hold
    · rw [if_neg h5] at hr
      by_cases hc : c ≠ '0'
      · rw [if_pos hc] at hr
        rcases stripStep_recs idx vt (c :: cs) st r hr with rfl | hold
        · exact Or.inr (Or.inl rfl)
        · exact Or.inl hold
      · rw [if_neg hc] at hr
        rcases ih (stripStep idx vt (c :: cs) st) r hr with hmid | hcs | hlen
        · rcases stripStep_recs idx vt (c :: cs) st r hmid with rfl | hold
          · exact Or.inr (Or.inl rfl)
          · exact Or.inl hold
        · refine Or.inr (Or.inr ?_)
          rw [hcs]
          simp only [List.length_cons] at h5
          omega
        · exact Or.inr (Or.inr hlen)

/-- C8 (corrected): the digits-only normal form of `00002-3231-30` is
`00002323130`, the zero-fill form is `0000203231030` (13 digits: each hyphen
becomes one `0`), leading-zero stripping records the intermediate variant
`2323130` in the index, and the stripping loop never produces a variant
shorter than the 5-character floor. -/
theorem spec_c8_normal_forms :
    openFdaDigitsKeepZeros (strL "00002-3231-30") = strL "00002323130" ∧
    openFdaHyphenZeroFill (strL "00002-3231-30") = strL "0000203231030" ∧
    ({ idx := 0, variant := strL "2323130", vtype := VType.digits } : IndexRec)
      ∈ indexRecs (buildOpenFdaIndexes [exItem8]).ndcByLength ∧
    ∀ (idx : Nat) (vt : VType) (cur : List Char) (st : BuildState),
      ∀ r ∈ indexRecs (stripLoop idx vt cur st).1,
        r ∈ indexRecs st.1 ∨ r.variant = cur ∨ 5 ≤ r.variant.length :=
  ⟨by decide, by decide, by decide, stripLoop_floor⟩

/-- C8 counterexample: the zero-fill form of `00002-3231-30` is
`0000203231030`, not the 14-digit string `00002032313030` given by the
claim. -/
theorem spec_c8_counterexample :
    openFdaHyphenZeroFill (strL "00002-3231-30") = strL "0000203231030" ∧
    ¬ openFdaHyphenZeroFill (strL "00002-3231-30") = strL "00002032313030" := by
  decide

/-- C8 witness: the floor statement of the corrected theorem applied to the
concrete stripping run of the digits-only form, at the recorded variant
`2323130`. -/
theorem spec_c8_normal_forms_witness :
    ({ idx := 0, variant := strL "2323130", vtype := VType.digits } : IndexRec)
        ∈ indexRecs (stripLoop 0 VType.digits (strL "00002323130") ([], [])).1 ∧
    (({ idx := 0, variant := strL "2323130", vtype := VType.digits } : IndexRec)
        ∈ indexRecs (([], []) : BuildState).1 ∨
      ({ idx := 0, variant := strL "2323130", vtype := VType.digits } : IndexRec).variant
        = strL "00002323130" ∨
      5 ≤ ({ idx := 0, variant := strL "2323130", vtype := VType.digits } : IndexRec).variant.length) :=
  ⟨by decide,
    spec_c8_normal_forms.2.2.2 0 VType.digits (strL "00002323130") ([], [])
      { idx := 0, variant := strL "2323130", vtype := VType.digits } (by decide)⟩

/-! ### C9: publication on write failure (corrected) -/

/-- Failure oracle failing exactly the manifest write. -/
def failsManifest : ArtifactPath → Bool :=
  fun p => decide (p = ArtifactPath.chunksManifest)

/-- The write order for a single enriched record. -/
lemma mainWriteOrder_one (r : EnrichedRecord) :
    mainWriteOrder [r]
      = [ArtifactPath.enrichedPublic, ArtifactPath.searchIndexPublic,
         ArtifactPath.chunkFile 1, ArtifactPath.chunksManifest,
         ArtifactPath.descClassMap] := by
  simp [mainWriteOrder, chunkSlices_one, List.range_succ]

/-- C9 counterexample: with a failing manifest write, the run exits with
status 1 but the consolidated output, the search index and the first chunk
file have already been written to their final paths — something is published
even though one artifact failed, contradicting the all-or-nothing claim. -/
theorem spec_c9_counterexample :
    (runWrites failsManifest (mainWriteOrder [defaultRec]) []).exitCode = 1 ∧
    (runWrites failsManifest (mainWriteOrder [defaultRec]) []).written
      = [ArtifactPath.enrichedPublic, ArtifactPath.searchIndexPublic,
         ArtifactPath.chunkFile 1] ∧
    ¬ (runWrites failsManifest (mainWriteOrder [defaultRec]) []).written = [] := by
  rw [mainWriteOrder_one]
  decide

/-- C9 (corrected): a fully successful run publishes every artifact in order
and exits 0; a run with any failing write exits with nonzero status, but the
artifacts are written directly to their final paths in a fixed order — the
artifacts preceding the first failure remain published, there is no
temporary-location staging. -/
theorem spec_c9_write_failure (fails : ArtifactPath → Bool) (enriched : List EnrichedRecord) :
    ((∀ p ∈ mainWriteOrder enriched, fails p = false) →
      runWrites fails (mainWriteOrder enriched) []
        = { written := mainWriteOrder enriched, exitCode := 0 }) ∧
    ((∃ p ∈ mainWriteOrder enriched, fails p = true) →
      (runWrites fails (mainWriteOrder enriched) []).exitCode = 1 ∧
      (runWrites fails (mainWriteOrder enriched) []).written
        = (mainWriteOrder enriched).takeWhile (fun p => ¬ fails p)) := by
  constructor
  · intro h
    have := runWrites_ok fails (mainWriteOrder enriched) [] h
    simpa using this
  · intro h
    have := runWrites_fail fails (mainWriteOrder enriched) [] h
    simpa using this

/-- C9 witness: the write-failure theorem applied to the failing-manifest
oracle over a one-record output. -/
theorem spec_c9_write_failure_witness :
    (runWrites failsManifest (mainWriteOrder [defaultRec]) []).exitCode = 1 ∧
    (runWrites failsManifest (mainWriteOrder [defaultRec]) []).written
      = (mainWriteOrder [defaultRec]).takeWhile (fun p => ¬ failsManifest p) :=
  (spec_c9_write_failure failsManifest [defaultRec]).2
    ⟨ArtifactPath.chunksManifest, by rw [mainWriteOrder_one]; decide, by decide⟩

end MedUi
